import Mathlib

/-!
Verification development for the DynamoDB-to-Snowflake record-flattening and
dynamic-schema load engine (`utils/flatten.py`, `lambda_function.py`).

The Python code is shallowly embedded: nested records become an inductive
tree, Python dicts (insertion-ordered, last write wins) become association
lists built by an explicit insert/update discipline, generators become
lists, and the sink (Snowflake) interactions are recorded as traces of
batch-insert calls and merge calls whose relational semantics is modelled
explicitly.
-/

/-- Scalar leaf values of a deserialized DynamoDB item: strings, numbers,
booleans, and null (Python `None`). -/
inductive Scalar where
| str (s : String)
| num (n : Int)
| boolean (b : Bool)
| null
deriving DecidableEq

/-- A NestedRecord: internal nodes are keyed mappings (Python dicts,
insertion-ordered entries) or sequences (Python lists); leaves are scalars.
This is the input type of `flatten_json`. -/
inductive Nested where
| leaf (v : Scalar)
| obj (entries : List (String × Nested))
| arr (elems : List Nested)

/-- Python dict assignment `d[k] = v` on an insertion-ordered dict rendered
as an association list: if the key is present its value is overwritten in
place, otherwise the pair is appended at the end. -/
def dictInsert (d : List (String × Scalar)) (k : String) (v : Scalar) :
    List (String × Scalar) :=
  if k ∈ d.map Prod.fst then
    d.map (fun p => if p.1 = k then (k, v) else p)
  else d ++ [(k, v)]

/-- Python `d.update(d2)`: insert every entry of `d2` into `d`, in order. -/
def dictUpdate (d d2 : List (String × Scalar)) : List (String × Scalar) :=
  d2.foldl (fun acc p => dictInsert acc p.1 p.2) d

/-- The key-extension rule of `flatten_json`:
`new_key = f"{parent_key}{sep}{key}" if parent_key else key`. -/
def joinKey (parent_key sep key : String) : String :=
  if parent_key = "" then key else parent_key ++ sep ++ key

mutual

/-- `flatten_json(data, parent_key, sep)` from `utils/flatten.py`:
recursively flattens a dict or list into a single dict mapping joined
path-keys to scalar leaves. Mapping entries extend the prefix with their
key, sequence elements with their zero-based index; a scalar is emitted
under the accumulated prefix. Sibling results are merged with dict
`update` semantics (`items` accumulator). -/
def flatten_json : Nested → String → String → List (String × Scalar)
| .leaf v, parent_key, _ => [(parent_key, v)]
| .obj entries, parent_key, sep => flattenObj entries parent_key sep []
| .arr elems, parent_key, sep => flattenArr elems 0 parent_key sep []

/-- The `for key, value in data.items()` loop of `flatten_json` with its
`items` accumulator. -/
def flattenObj : List (String × Nested) → String → String →
    List (String × Scalar) → List (String × Scalar)
| [], _, _, items => items
| (key, value) :: rest, parent_key, sep, items =>
    flattenObj rest parent_key sep
      (dictUpdate items (flatten_json value (joinKey parent_key sep key) sep))

/-- The `for idx, value in enumerate(data)` loop of `flatten_json` with its
`items` accumulator. -/
def flattenArr : List Nested → Nat → String → String →
    List (String × Scalar) → List (String × Scalar)
| [], _, _, _, items => items
| value :: rest, idx, parent_key, sep, items =>
    flattenArr rest (idx + 1) parent_key sep
      (dictUpdate items (flatten_json value (joinKey parent_key sep (toString idx)) sep))

end

mutual

/-- The pre-order list of (FlatKey, scalar) pairs for every scalar leaf of a
record: what `flatten_json` would produce if dict merging never collided.
Reference list for leaf counting and collision analysis. -/
def flattenLeaves : Nested → String → String → List (String × Scalar)
| .leaf v, parent_key, _ => [(parent_key, v)]
| .obj entries, parent_key, sep => leavesObj entries parent_key sep
| .arr elems, parent_key, sep => leavesArr elems 0 parent_key sep

/-- Leaf enumeration over the entries of a mapping node. -/
def leavesObj : List (String × Nested) → String → String → List (String × Scalar)
| [], _, _ => []
| (key, value) :: rest, parent_key, sep =>
    flattenLeaves value (joinKey parent_key sep key) sep ++ leavesObj rest parent_key sep

/-- Leaf enumeration over the elements of a sequence node. -/
def leavesArr : List Nested → Nat → String → String → List (String × Scalar)
| [], _, _, _ => []
| value :: rest, idx, parent_key, sep =>
    flattenLeaves value (joinKey parent_key sep (toString idx)) sep ++
      leavesArr rest (idx + 1) parent_key sep

end

mutual

/-- The number of scalar leaves reachable in a NestedRecord; empty mappings
and empty sequences contribute zero. -/
def leafCount : Nested → Nat
| .leaf _ => 1
| .obj entries => leafCountObj entries
| .arr elems => leafCountArr elems

/-- Leaf count over mapping entries. -/
def leafCountObj : List (String × Nested) → Nat
| [] => 0
| (_, value) :: rest => leafCount value + leafCountObj rest

/-- Leaf count over sequence elements. -/
def leafCountArr : List Nested → Nat
| [] => 0
| value :: rest => leafCount value + leafCountArr rest

end

/-- Lexicographic comparison of character lists by code point, the order
Python uses to compare strings. -/
def charLe : List Char → List Char → Bool
| [], _ => true
| _ :: _, [] => false
| a :: as, b :: bs =>
  if a.val < b.val then true
  else if b.val < a.val then false
  else charLe as bs

/-- Python string comparison: lexicographic on code points. -/
def strLe (a b : String) : Bool := charLe a.data b.data

/-- Insert a string into an already sorted list (ascending, lexicographic on
code points, as Python string comparison). -/
def insertSorted (x : String) : List String → List String
| [] => [x]
| y :: ys => if strLe x y then x :: y :: ys else y :: insertSorted x ys

/-- Python `sorted` on a list of strings (insertion sort; ascending). -/
def sortStrings (l : List String) : List String :=
  l.foldr insertSorted []

/-- `infer_columns(sample_record)` from `lambda_function.py`: flatten one
record and return the sorted list of its keys; that becomes the column set. -/
def infer_columns (sample_record : Nested) : List String :=
  sortStrings ((flatten_json sample_record "" "_").map Prod.fst)

/-- A Row as handed to the Snowflake driver: one binding per column name.
SQL NULL and Python `None` are both `Scalar.null`. -/
abbrev Row := List (String × Scalar)

/-- Python `flat.get(col)`: the first value bound to `col`, or `None`
(`Scalar.null`) when the key is absent. Also used for reading an attribute
of a sink row, where an absent attribute reads as SQL NULL. -/
def getVal (col : String) (r : Row) : Scalar :=
  (List.lookup col r).getD Scalar.null

/-- `row = {col: flat.get(col) for col in columns}` from both load
functions: project a flat record onto a fixed column set, null-filling
missing keys and dropping keys outside the column set. -/
def project (flat : List (String × Scalar)) (columns : List String) : Row :=
  columns.map (fun col => (col, getVal col flat))

/-- One iteration of the batch loop of `load_truncate`: append the row to
the current batch; once the batch reaches `BATCH_SIZE`, emit it as one
`executemany` call and clear it. State is (emitted batches, current batch). -/
def batchStep (batchSize : Nat) (acc : List (List Row) × List Row) (row : Row) :
    List (List Row) × List Row :=
  let b := acc.2 ++ [row]
  if batchSize ≤ b.length then (acc.1 ++ [b], []) else (acc.1, b)

/-- The whole `for rec in ...` batch loop of `load_truncate`, returning the
automatic flushes and the leftover partial batch. -/
def batchLoop (batchSize : Nat) (rows : List Row) : List (List Row) × List Row :=
  rows.foldl (batchStep batchSize) ([], [])

/-- All `executemany` calls issued by `load_truncate` for a given row
sequence: the automatic flushes, then the trailing `if batch:` flush of the
leftover rows when (and only when) some are left. -/
def batchFlushes (batchSize : Nat) (rows : List Row) : List (List Row) :=
  let st := batchLoop batchSize rows
  if st.2 = [] then st.1 else st.1 ++ [st.2]

/-- Outcome of `load_truncate`: either the empty-source early return (after
`logger.warning`), or the inferred columns together with the sequence of
batch INSERT calls issued. -/
inductive TruncateResult where
| emptySource
| ran (columns : List String) (batches : List (List Row))
deriving DecidableEq

/-- `load_truncate(conn)` from `lambda_function.py` over a source scan given
as a list. It ensures the table exists (no other DDL), takes the first
record of one scan as the sample (empty source: warn and return), infers
columns from it, then iterates `[first_rec] + list(scan_dynamodb())` — the
sample prepended to a second, full scan — projecting each record and
batching the rows. -/
def load_truncate (batchSize : Nat) (src : List Nested) : TruncateResult :=
  match src with
  | [] => .emptySource
  | first :: _ =>
    let columns := infer_columns first
    let rows := (first :: src).map (fun item => project (flatten_json item "" "_") columns)
    .ran columns (batchFlushes batchSize rows)

/-- The batch INSERT calls issued by a `load_truncate` run. -/
def truncateWrites : TruncateResult → List (List Row)
| .emptySource => []
| .ran _ batches => batches

/-- Whether the `load_truncate` run took the empty-source warning path. -/
def truncateWarnedEmpty : TruncateResult → Bool
| .emptySource => true
| .ran _ _ => false

/-- Destination relation contents after a `load_truncate` run: the run
issues only `CREATE TABLE IF NOT EXISTS` (a no-op on an existing relation)
and INSERT statements, so the rows present before the run all remain and
the inserted rows are appended. -/
def truncateSinkAfter (prior : List Row) (batchSize : Nat) (src : List Nested) :
    List Row :=
  match load_truncate batchSize src with
  | .emptySource => prior
  | .ran _ batches => prior ++ batches.flatten

/-- The structured result returned by a Lambda handler. -/
structure HandlerResult where
  statusCode : Nat
  body : String
deriving DecidableEq

/-- `truncate_load_handler(event, context)`: runs `load_truncate` and, on
any non-raising run, returns the fixed success result. -/
def truncate_load_handler (batchSize : Nat) (src : List Nested) :
    HandlerResult × TruncateResult :=
  ({ statusCode := 200, body := "Full load succeeded" }, load_truncate batchSize src)

/-- The column-placement content of the MERGE statement built by
`load_upsert`: the match predicate column of `ON T.uuid = S.uuid`, the
`UPDATE SET` column list, and the `INSERT (...)` column list. -/
structure MergeStmt where
  matchCol : String
  updateCols : List String
  insertCols : List String
deriving DecidableEq

/-- The MERGE statement `load_upsert` builds from the inferred columns:
`update` is every column except the literal `uuid`, the ON predicate is
`T.uuid = S.uuid`, and the insert list is every column. -/
def mergeStmtFor (columns : List String) : MergeStmt :=
  { matchCol := "uuid"
    updateCols := columns.filter (fun c => decide (c ≠ "uuid"))
    insertCols := columns }

/-- Outcome of `load_upsert`: the empty-source early return, or the inferred
columns, the MERGE statement, and the per-record merge calls in order. -/
inductive UpsertResult where
| emptySource
| ran (columns : List String) (stmt : MergeStmt) (mergeRows : List Row)
deriving DecidableEq

/-- `load_upsert(conn)` from `lambda_function.py`: sample the first record
of one scan (empty source: warn and return), infer columns, build the MERGE
statement, then scan the source once and issue one merge call per record
with its projected row. -/
def load_upsert (src : List Nested) : UpsertResult :=
  match src with
  | [] => .emptySource
  | first :: _ =>
    let columns := infer_columns first
    .ran columns (mergeStmtFor columns)
      (src.map (fun item => project (flatten_json item "" "_") columns))

/-- The merge calls issued by a `load_upsert` run. -/
def upsertMerges : UpsertResult → List Row
| .emptySource => []
| .ran _ _ mergeRows => mergeRows

/-- Whether the `load_upsert` run took the empty-source warning path. -/
def upsertWarnedEmpty : UpsertResult → Bool
| .emptySource => true
| .ran _ _ _ => false

/-- `incremental_upsert_handler(event, context)`: runs `load_upsert` and, on
any non-raising run, returns the fixed success result. -/
def incremental_upsert_handler (src : List Nested) :
    HandlerResult × UpsertResult :=
  ({ statusCode := 200, body := "Upsert succeeded" }, load_upsert src)

/-- The ON predicate `T.{key} = S.{key}` of the generated MERGE, under SQL
equality: a NULL key never matches anything (including NULL). -/
abbrev rowMatches (key : String) (t r : Row) : Prop :=
  getVal key t = getVal key r ∧ getVal key r ≠ Scalar.null

/-- The effect of `UPDATE SET T.c = S.c` (for the listed columns) on one
attribute binding of a target row. -/
def updEntry (upd : List String) (r : Row) (p : String × Scalar) : String × Scalar :=
  if p.1 ∈ upd then (p.1, getVal p.1 r) else p

/-- `WHEN MATCHED THEN UPDATE SET ...`: overwrite the listed columns of the
target row with the source row's values. -/
def updateRow (upd : List String) (t r : Row) : Row :=
  t.map (updEntry upd r)

/-- The effect of one merge call on one target row: update it if the ON
predicate matches, leave it unchanged otherwise. -/
def stepFn (stmt : MergeStmt) (t r : Row) : Row :=
  if rowMatches stmt.matchCol t r then updateRow stmt.updateCols t r else t

/-- Relational semantics of one `cur.execute(merge_sql, row)` call against
the sink: if any target row satisfies the ON predicate, every matching
target row is updated; otherwise the source row is inserted. -/
def mergeApply (stmt : MergeStmt) (state : List Row) (r : Row) : List Row :=
  if state.any (fun t => decide (rowMatches stmt.matchCol t r)) then
    state.map (fun t => stepFn stmt t r)
  else state ++ [r]

/-- Destination relation contents after a `load_upsert` run: each merge call
is applied to the sink state in order; the empty-source path touches
nothing. -/
def runUpsertSink (prior : List Row) (src : List Nested) : List Row :=
  match load_upsert src with
  | .emptySource => prior
  | .ran _ stmt mergeRows => mergeRows.foldl (mergeApply stmt) prior

/-- The key-column policy exactly as claimed of a run configured with
key-column name `key`: the merge excludes `key` from the overwritten
columns yet uses it in the match predicate and the insert list. Stated from
the spec's words, to be compared with `mergeStmtFor`. -/
def specKeyColumnPolicy (key : String) (columns : List String) : Prop :=
  key ∉ (mergeStmtFor columns).updateCols ∧
  (mergeStmtFor columns).matchCol = key ∧
  key ∈ (mergeStmtFor columns).insertCols

/-! ### Helper lemmas -/

theorem dictInsert_of_not_mem (d : List (String × Scalar)) (k : String) (v : Scalar)
    (h : k ∉ d.map Prod.fst) : dictInsert d k v = d ++ [(k, v)] := by
  simp [dictInsert, h]

theorem dictUpdate_nil (d : List (String × Scalar)) : dictUpdate d [] = d := rfl

theorem dictUpdate_cons (d : List (String × Scalar)) (k : String) (v : Scalar)
    (rest : List (String × Scalar)) :
    dictUpdate d ((k, v) :: rest) = dictUpdate (dictInsert d k v) rest := rfl

theorem dictUpdate_of_disjoint : ∀ (d2 d : List (String × Scalar)),
    (∀ k ∈ d2.map Prod.fst, k ∉ d.map Prod.fst) → (d2.map Prod.fst).Nodup →
    dictUpdate d d2 = d ++ d2
| [], d, _, _ => by simp [dictUpdate]
| (k, v) :: rest, d, hdisj, hnd => by
  rw [List.map_cons] at hnd
  have hnd' := List.nodup_cons.mp hnd
  have hk : k ∉ d.map Prod.fst := hdisj k (by simp)
  rw [dictUpdate_cons, dictInsert_of_not_mem d k v hk,
    dictUpdate_of_disjoint rest (d ++ [(k, v)]) ?_ hnd'.2]
  · simp
  · intro key hkey hc
    rw [List.map_append, List.mem_append] at hc
    rcases hc with hc | hc
    · exact hdisj key (by simp [hkey]) hc
    · simp only [List.map_cons, List.map_nil, List.mem_singleton] at hc
      exact hnd'.1 (hc ▸ hkey)

mutual

theorem flattenLeaves_length : ∀ (r : Nested) (parent_key sep : String),
    (flattenLeaves r parent_key sep).length = leafCount r
| .leaf v, _, _ => by simp [flattenLeaves, leafCount]
| .obj es, p, s => by
  simp only [flattenLeaves, leafCount]
  exact leavesObj_length es p s
| .arr xs, p, s => by
  simp only [flattenLeaves, leafCount]
  exact leavesArr_length xs 0 p s

theorem leavesObj_length : ∀ (es : List (String × Nested)) (p s : String),
    (leavesObj es p s).length = leafCountObj es
| [], _, _ => by simp [leavesObj, leafCountObj]
| (k, v) :: rest, p, s => by
  simp only [leavesObj, leafCountObj, List.length_append]
  rw [flattenLeaves_length v (joinKey p s k) s, leavesObj_length rest p s]

theorem leavesArr_length : ∀ (xs : List Nested) (i : Nat) (p s : String),
    (leavesArr xs i p s).length = leafCountArr xs
| [], _, _, _ => by simp [leavesArr, leafCountArr]
| v :: rest, i, p, s => by
  simp only [leavesArr, leafCountArr, List.length_append]
  rw [flattenLeaves_length v (joinKey p s (toString i)) s, leavesArr_length rest (i + 1) p s]

end

mutual

theorem flatten_eq_leaves : ∀ (r : Nested) (p s : String),
    ((flattenLeaves r p s).map Prod.fst).Nodup →
    flatten_json r p s = flattenLeaves r p s
| .leaf _, _, _, _ => by simp [flatten_json, flattenLeaves]
| .obj es, p, s, h => by
  have hh := flattenObj_eq_leaves es p s [] (by simpa [flattenLeaves] using h)
  simpa [flatten_json, flattenLeaves] using hh
| .arr xs, p, s, h => by
  have hh := flattenArr_eq_leaves xs 0 p s [] (by simpa [flattenLeaves] using h)
  simpa [flatten_json, flattenLeaves] using hh

theorem flattenObj_eq_leaves : ∀ (es : List (String × Nested)) (p s : String)
    (items : List (String × Scalar)),
    (items.map Prod.fst ++ (leavesObj es p s).map Prod.fst).Nodup →
    flattenObj es p s items = items ++ leavesObj es p s
| [], p, s, items, _ => by simp [flattenObj, leavesObj]
| (k, v) :: rest, p, s, items, h => by
  have hL : (leavesObj ((k, v) :: rest) p s).map Prod.fst
      = (flattenLeaves v (joinKey p s k) s).map Prod.fst ++ (leavesObj rest p s).map Prod.fst := by
    simp [leavesObj]
  rw [hL] at h
  have hsplit := List.nodup_append.mp h
  have hsplit2 := List.nodup_append.mp hsplit.2.1
  have hvnd : ((flattenLeaves v (joinKey p s k) s).map Prod.fst).Nodup := hsplit2.1
  have hdisj : ∀ key ∈ (flattenLeaves v (joinKey p s k) s).map Prod.fst,
      key ∉ items.map Prod.fst := by
    intro key hkey hc
    exact hsplit.2.2 hc (List.mem_append_left _ hkey)
  have hv := flatten_eq_leaves v (joinKey p s k) s hvnd
  have hrest := flattenObj_eq_leaves rest p s (items ++ flattenLeaves v (joinKey p s k) s) ?_
  · simp only [flattenObj]
    rw [hv, dictUpdate_of_disjoint _ _ hdisj hvnd, hrest]
    simp [leavesObj]
  · simp only [List.map_append]
    rw [List.append_assoc]
    exact h

theorem flattenArr_eq_leaves : ∀ (xs : List Nested) (i : Nat) (p s : String)
    (items : List (String × Scalar)),
    (items.map Prod.fst ++ (leavesArr xs i p s).map Prod.fst).Nodup →
    flattenArr xs i p s items = items ++ leavesArr xs i p s
| [], _, p, s, items, _ => by simp [flattenArr, leavesArr]
| v :: rest, i, p, s, items, h => by
  have hL : (leavesArr (v :: rest) i p s).map Prod.fst
      = (flattenLeaves v (joinKey p s (toString i)) s).map Prod.fst
        ++ (leavesArr rest (i + 1) p s).map Prod.fst := by
    simp [leavesArr]
  rw [hL] at h
  have hsplit := List.nodup_append.mp h
  have hsplit2 := List.nodup_append.mp hsplit.2.1
  have hvnd : ((flattenLeaves v (joinKey p s (toString i)) s).map Prod.fst).Nodup := hsplit2.1
  have hdisj : ∀ key ∈ (flattenLeaves v (joinKey p s (toString i)) s).map Prod.fst,
      key ∉ items.map Prod.fst := by
    intro key hkey hc
    exact hsplit.2.2 hc (List.mem_append_left _ hkey)
  have hv := flatten_eq_leaves v (joinKey p s (toString i)) s hvnd
  have hrest := flattenArr_eq_leaves rest (i + 1) p s
      (items ++ flattenLeaves v (joinKey p s (toString i)) s) ?_
  · simp only [flattenArr]
    rw [hv, dictUpdate_of_disjoint _ _ hdisj hvnd, hrest]
    simp [leavesArr]
  · simp only [List.map_append]
    rw [List.append_assoc]
    exact h

end

theorem batchLoop_aux (batchSize : Nat) :
    ∀ (rows : List Row) (fs : List (List Row)) (b : List Row), b.length < batchSize →
      ((rows.foldl (batchStep batchSize) (fs, b)).1.length
          = fs.length + (b.length + rows.length) / batchSize) ∧
      (∀ x ∈ (rows.foldl (batchStep batchSize) (fs, b)).1, x ∈ fs ∨ x.length = batchSize) ∧
      ((rows.foldl (batchStep batchSize) (fs, b)).2.length
          = (b.length + rows.length) % batchSize) := by
  intro rows
  induction rows with
  | nil =>
    intro fs b hb
    refine ⟨?_, ?_, ?_⟩
    · simp [Nat.div_eq_of_lt hb]
    · intro x hx
      exact Or.inl hx
    · simp [Nat.mod_eq_of_lt hb]
  | cons row rest ih =>
    intro fs b hb
    have hpos : 0 < batchSize := Nat.lt_of_le_of_lt (Nat.zero_le _) hb
    simp only [List.foldl_cons, List.length_cons]
    by_cases hx : batchSize ≤ (b ++ [row]).length
    · have hlen1 : (b ++ [row]).length = b.length + 1 := by simp
      rw [hlen1] at hx
      have hlen : b.length + 1 = batchSize := by omega
      have hstep : batchStep batchSize (fs, b) row = (fs ++ [b ++ [row]], []) := by
        simp [batchStep, hx]
      rw [hstep]
      obtain ⟨ih1, ih2, ih3⟩ := ih (fs ++ [b ++ [row]]) [] hpos
      refine ⟨?_, ?_, ?_⟩
      · rw [ih1]
        simp only [List.length_append, List.length_cons, List.length_nil, List.length_singleton,
          Nat.zero_add]
        have harith : b.length + (rest.length + 1) = rest.length + batchSize := by omega
        rw [harith, Nat.add_div_right _ hpos]
        omega
      · intro x hxm
        rcases ih2 x hxm with hmem | hl
        · rcases List.mem_append.mp hmem with hmem2 | hmem2
          · exact Or.inl hmem2
          · refine Or.inr ?_
            have hxeq : x = b ++ [row] := by simpa using hmem2
            rw [hxeq, hlen1]
            exact hlen
        · exact Or.inr hl
      · rw [ih3]
        simp only [List.length_cons, List.length_nil, Nat.zero_add]
        have harith : b.length + (rest.length + 1) = rest.length + batchSize := by omega
        rw [harith, Nat.add_mod_right]
    · have hblen : (b ++ [row]).length < batchSize := Nat.lt_of_not_le hx
      have hstep : batchStep batchSize (fs, b) row = (fs, b ++ [row]) := by
        simp only [List.length_append, List.length_singleton] at hx
        simp [batchStep, hx]
      rw [hstep]
      obtain ⟨ih1, ih2, ih3⟩ := ih fs (b ++ [row]) hblen
      refine ⟨?_, ih2, ?_⟩
      · rw [ih1]
        simp only [List.length_append, List.length_cons, List.length_nil, Nat.zero_add]
        have harith : b.length + 1 + rest.length = b.length + (rest.length + 1) := by omega
        rw [harith]
      · rw [ih3]
        simp only [List.length_append, List.length_cons, List.length_nil, Nat.zero_add]
        have harith : b.length + 1 + rest.length = b.length + (rest.length + 1) := by omega
        rw [harith]

/-! ### Claim theorems -/

/-- Claim C1 (refuting evaluation): on the one-record source
`[{"a": 1}]`, `load_truncate` hands the sink a single batch containing the
projected row twice, because the sampled first record is prepended to a
fresh full re-scan that yields it again, so the sample is loaded twice
rather than exactly once. -/
theorem load_truncate_duplicates_sample :
    load_truncate 500 [Nested.obj [("a", Nested.leaf (Scalar.num 1))]] =
      TruncateResult.ran ["a"] [[[("a", Scalar.num 1)], [("a", Scalar.num 1)]]] := by
  decide

/-- Claim C2 (refuting evaluation): a `load_truncate` run issues only
`CREATE TABLE IF NOT EXISTS` and INSERTs — never a TRUNCATE or DELETE — so
a row present in the destination before the run (here `{"a": 99}`) is still
present afterwards, alongside the newly inserted rows; the destination is
not replaced wholesale. -/
theorem load_truncate_keeps_prior_rows :
    truncateSinkAfter [[("a", Scalar.num 99)]] 500
        [Nested.obj [("a", Nested.leaf (Scalar.num 1))]] =
      [[("a", Scalar.num 99)], [("a", Scalar.num 1)], [("a", Scalar.num 1)]] := by
  decide

/-- Claim C3 counterexample: the structured result returned by each entry
point on an empty source is identical to the one returned on a non-empty
source, so the result does not report the empty-source outcome distinctly
(the warning goes only to the logger, and the success body carries no row
count). -/
theorem handlers_same_result_on_empty_source :
    (truncate_load_handler 500 []).1 =
      (truncate_load_handler 500 [Nested.obj [("a", Nested.leaf (Scalar.num 1))]]).1 ∧
    (incremental_upsert_handler []).1 =
      (incremental_upsert_handler [Nested.obj [("uuid", Nested.leaf (Scalar.str "u1"))]]).1 :=
  ⟨rfl, rfl⟩

/-- Claim C3 as amended: with an empty source, both load modes take the
warning path and issue zero batch-write and zero merge calls, and each
entry point returns the same fixed success result it returns for any
non-raising run. -/
theorem empty_source_handling (batchSize : Nat) :
    truncateWrites (load_truncate batchSize []) = [] ∧
    truncateWarnedEmpty (load_truncate batchSize []) = true ∧
    upsertMerges (load_upsert []) = [] ∧
    upsertWarnedEmpty (load_upsert []) = true ∧
    (truncate_load_handler batchSize []).1 = ⟨200, "Full load succeeded"⟩ ∧
    (incremental_upsert_handler []).1 = ⟨200, "Upsert succeeded"⟩ :=
  ⟨rfl, rfl, rfl, rfl, rfl, rfl⟩

/-- Claim C4 counterexample: appending N = 2 rows with threshold T = 2
triggers exactly one `executemany` call (the automatic flush); the claimed
final flush of the zero-row remainder does not happen, because the trailing
flush is guarded by `if batch:`. The claim predicts floor(2/2) + 1 = 2
flushes. -/
theorem batch_final_flush_skipped_when_no_remainder :
    (batchFlushes 2 [[("a", Scalar.num 1)], [("a", Scalar.num 2)]]).length = 1 ∧
    (batchFlushes 2 [[("a", Scalar.num 1)], [("a", Scalar.num 2)]]).length ≠ 2 / 2 + 1 := by
  decide

/-- Claim C4 as amended: with threshold T > 0, appending N rows triggers
exactly floor(N/T) automatic batch writes of T rows each during streaming,
leaves N mod T rows in the final partial batch, and the trailing flush of
that partial batch happens exactly when the remainder is non-zero, so the
total number of batch writes is floor(N/T) plus (1 if N mod T > 0 else 0). -/
theorem batch_flush_counts (batchSize : Nat) (rows : List Row) (h : 0 < batchSize) :
    (batchLoop batchSize rows).1.length = rows.length / batchSize ∧
    (∀ x ∈ (batchLoop batchSize rows).1, x.length = batchSize) ∧
    (batchLoop batchSize rows).2.length = rows.length % batchSize ∧
    (batchFlushes batchSize rows).length
        = rows.length / batchSize + (if rows.length % batchSize = 0 then 0 else 1) := by
  obtain ⟨h1, h2, h3⟩ := batchLoop_aux batchSize rows [] [] h
  simp only [batchLoop] at *
  refine ⟨by simpa using h1, ?_, by simpa using h3, ?_⟩
  · intro x hx
    rcases h2 x hx with hc | hc
    · exact absurd hc (List.not_mem_nil x)
    · exact hc
  · simp only [batchFlushes, batchLoop]
    by_cases hrem : (rows.foldl (batchStep batchSize) ([], [])).2 = []
    · have hz : rows.length % batchSize = 0 := by
        have := h3
        rw [hrem] at this
        simpa using this.symm
      simp [hrem, hz]
      simpa using h1
    · have hnz : rows.length % batchSize ≠ 0 := by
        intro hzero
        apply hrem
        have hlen0 : (rows.foldl (batchStep batchSize) ([], [])).2.length = 0 := by
          rw [h3]
          simpa using hzero
        exact List.length_eq_zero.mp hlen0
      simp [hrem, hnz]
      simpa using h1

/-- Claim C4 witness: three one-column rows with threshold 2 give one
automatic flush, one leftover row, and two flushes in total. -/
theorem batch_flush_counts_witness :
    (batchLoop 2 [[("a", Scalar.num 1)], [("a", Scalar.num 2)], [("a", Scalar.num 3)]]).1.length = 1 ∧
    (batchLoop 2 [[("a", Scalar.num 1)], [("a", Scalar.num 2)], [("a", Scalar.num 3)]]).2.length = 1 ∧
    (batchFlushes 2 [[("a", Scalar.num 1)], [("a", Scalar.num 2)], [("a", Scalar.num 3)]]).length = 2 :=
  ⟨(batch_flush_counts 2 _ (by decide)).1,
   (batch_flush_counts 2 _ (by decide)).2.2.1,
   (batch_flush_counts 2 _ (by decide)).2.2.2⟩

/-- Claim C5 counterexample: for the record
`{"a": {"b": 1}, "a_b": 2}`, the two distinct leaf paths both flatten to
the FlatKey `a_b` (the separator appears inside an original key), the later
value silently overwrites the earlier one, and `flatten_json` has 1 entry
while the record has 2 scalar leaves. -/
theorem flatten_collision_loses_leaf :
    (flatten_json
        (Nested.obj [("a", Nested.obj [("b", Nested.leaf (Scalar.num 1))]),
          ("a_b", Nested.leaf (Scalar.num 2))]) "" "_").length = 1 ∧
    leafCount
        (Nested.obj [("a", Nested.obj [("b", Nested.leaf (Scalar.num 1))]),
          ("a_b", Nested.leaf (Scalar.num 2))]) = 2 := by
  decide

/-- Claim C5 as amended: whenever the FlatKeys generated for the distinct
leaves of `r` are pairwise distinct (no separator-induced collision), the
number of entries in `flatten_json r` equals the number of scalar leaves
reachable in `r`, with empty mappings and sequences contributing zero. -/
theorem flatten_length_eq_leafCount (r : Nested) (parent_key sep : String)
    (hnc : ((flattenLeaves r parent_key sep).map Prod.fst).Nodup) :
    (flatten_json r parent_key sep).length = leafCount r := by
  rw [flatten_eq_leaves r parent_key sep hnc, flattenLeaves_length]

/-- Claim C5 witness: a two-leaf record without collisions has a two-entry
flattening. -/
theorem flatten_length_eq_leafCount_witness :
    (flatten_json
        (Nested.obj [("a", Nested.leaf (Scalar.num 1)),
          ("b", Nested.arr [Nested.leaf (Scalar.num 2)])]) "" "_").length =
      leafCount
        (Nested.obj [("a", Nested.leaf (Scalar.num 1)),
          ("b", Nested.arr [Nested.leaf (Scalar.num 2)])]) :=
  flatten_length_eq_leafCount _ "" "_" (by decide)

/-- Claim C6 counterexample: for a run whose configured key-column name is
`id` (with inferred columns `[id, x]`), the generated merge does not follow
the claimed key-column policy: the match predicate column is the hardcoded
`uuid`, not `id`, and `id` is not excluded from the overwritten columns. -/
theorem merge_key_not_configurable : ¬ specKeyColumnPolicy "id" ["id", "x"] := by
  unfold specKeyColumnPolicy mergeStmtFor
  decide

/-- Claim C6 as amended: the designated key column is the hardcoded literal
`uuid` (there is no key-column configuration): the merge always excludes
`uuid` from the overwritten columns, always matches on `uuid`, includes
`uuid` in the insert column list whenever it is among the inferred columns,
and overwrites every other inferred column. -/
theorem merge_key_column_policy (columns : List String) :
    "uuid" ∉ (mergeStmtFor columns).updateCols ∧
    (mergeStmtFor columns).matchCol = "uuid" ∧
    ("uuid" ∈ columns → "uuid" ∈ (mergeStmtFor columns).insertCols) ∧
    (∀ c ∈ columns, c ≠ "uuid" → c ∈ (mergeStmtFor columns).updateCols) := by
  refine ⟨?_, rfl, fun h => h, fun c hc hne => ?_⟩
  · intro hmem
    simp only [mergeStmtFor, List.mem_filter, decide_eq_true_eq] at hmem
    exact hmem.2 rfl
  · simp only [mergeStmtFor, List.mem_filter, decide_eq_true_eq]
    exact ⟨hc, hne⟩

/-- Claim C6 witness: with inferred columns `[uuid, a]`, the key column is
kept out of the update list and present in the insert list. -/
theorem merge_key_column_policy_witness :
    "uuid" ∉ (mergeStmtFor ["uuid", "a"]).updateCols ∧
    "uuid" ∈ (mergeStmtFor ["uuid", "a"]).insertCols :=
  ⟨(merge_key_column_policy ["uuid", "a"]).1,
   (merge_key_column_policy ["uuid", "a"]).2.2.1 (by decide)⟩

/-- Claim C7: for every FlatRecord `f` and ColumnSet `C`, `project f C` has
exactly the keys of `C` in `C`'s order; each value is `f`'s value at that
column when present and null otherwise; and no key outside `C` appears. -/
theorem project_total_coverage (f : List (String × Scalar)) (C : List String) :
    (project f C).map Prod.fst = C ∧
    (∀ q ∈ project f C, q.2 = (List.lookup q.1 f).getD Scalar.null) ∧
    (∀ k, k ∉ C → k ∉ (project f C).map Prod.fst) := by
  have h1 : (project f C).map Prod.fst = C := by
    unfold project
    rw [List.map_map]
    exact List.map_id C
  refine ⟨h1, ?_, fun k hk hmem => hk (h1 ▸ hmem)⟩
  intro q hq
  simp only [project, List.mem_map] at hq
  obtain ⟨c, _, rfl⟩ := hq
  simp [getVal]

/-- Claim C7 witness: projecting `{"b": 5}` onto columns `[a, b]` yields
exactly those keys, with `a` null-filled, and the extra key test holds. -/
theorem project_total_coverage_witness :
    (project [("b", Scalar.num 5)] ["a", "b"]).map Prod.fst = ["a", "b"] ∧
    "z" ∉ (project [("b", Scalar.num 5)] ["a", "b"]).map Prod.fst :=
  ⟨(project_total_coverage [("b", Scalar.num 5)] ["a", "b"]).1,
   (project_total_coverage [("b", Scalar.num 5)] ["a", "b"]).2.2 "z" (by decide)⟩

/-- Claim C9: flattening is deterministic — any two results of
`flatten_json` on the same record, prefix, and separator are identical
(same keys, same values, same order); the embedding of the code is a pure
function of these three inputs. -/
theorem flatten_json_deterministic (r : Nested) (parent_key sep : String)
    (out1 out2 : List (String × Scalar))
    (h1 : out1 = flatten_json r parent_key sep)
    (h2 : out2 = flatten_json r parent_key sep) :
    out1 = out2 :=
  h1.trans h2.symm

/-- Claim C9 witness: two evaluations of `flatten_json` on a concrete
record coincide. -/
theorem flatten_json_deterministic_witness :
    flatten_json (Nested.obj [("a", Nested.leaf (Scalar.num 1))]) "" "_" =
      flatten_json (Nested.obj [("a", Nested.leaf (Scalar.num 1))]) "" "_" :=
  flatten_json_deterministic (Nested.obj [("a", Nested.leaf (Scalar.num 1))]) "" "_" _ _ rfl rfl

/-- Claim C10: flattening a bare scalar (or null) at the root, where the
accumulated prefix is empty, emits a single entry keyed by the empty
string, and schema inference on such a record returns the empty string as
the sole column name rather than raising an error. -/
theorem flatten_scalar_root_empty_key (v : Scalar) (sep : String) :
    flatten_json (Nested.leaf v) "" sep = [("", v)] ∧
    infer_columns (Nested.leaf v) = [""] :=
  ⟨rfl, rfl⟩

/-! ### Merge idempotence infrastructure -/

theorem getVal_cons (key a : String) (w : Scalar) (t : Row) :
    getVal key ((a, w) :: t) = if key = a then w else getVal key t := by
  by_cases h : key = a
  · simp [getVal, List.lookup, h]
  · have hb : (key == a) = false := by simp [h]
    simp [getVal, List.lookup, hb, h]

theorem updEntry_fst (upd : List String) (r : Row) (p : String × Scalar) :
    (updEntry upd r p).1 = p.1 := by
  unfold updEntry
  split <;> rfl

theorem updEntry_comp (upd : List String) (r1 r2 : Row) (p : String × Scalar) :
    updEntry upd r2 (updEntry upd r1 p) = updEntry upd r2 p := by
  unfold updEntry
  by_cases h : p.1 ∈ upd
  · simp [h]
  · simp [h]

theorem updateRow_cons (upd : List String) (p : String × Scalar) (t r : Row) :
    updateRow upd (p :: t) r = updEntry upd r p :: updateRow upd t r := rfl

theorem updateRow_updateRow (upd : List String) (t r1 r2 : Row) :
    updateRow upd (updateRow upd t r1) r2 = updateRow upd t r2 := by
  unfold updateRow
  rw [List.map_map]
  apply List.map_congr_left
  intro p _
  exact updEntry_comp upd r1 r2 p

theorem getVal_updateRow (key : String) (upd : List String) (hk : key ∉ upd) :
    ∀ (t r : Row), getVal key (updateRow upd t r) = getVal key t := by
  intro t r
  induction t with
  | nil => rfl
  | cons p t ih =>
    obtain ⟨a, w⟩ := p
    rw [updateRow_cons]
    by_cases hm : a ∈ upd
    · have he : updEntry upd r (a, w) = (a, getVal a r) := by simp [updEntry, hm]
      rw [he, getVal_cons, getVal_cons]
      by_cases hka : key = a
      · exact absurd (hka ▸ hm) hk
      · simp [hka, ih]
    · have he : updEntry upd r (a, w) = (a, w) := by simp [updEntry, hm]
      rw [he, getVal_cons, getVal_cons]
      by_cases hka : key = a
      · simp [hka]
      · simp [hka, ih]

theorem getVal_stepFn (stmt : MergeStmt) (hk : stmt.matchCol ∉ stmt.updateCols)
    (t r0 : Row) : getVal stmt.matchCol (stepFn stmt t r0) = getVal stmt.matchCol t := by
  unfold stepFn
  split
  · exact getVal_updateRow stmt.matchCol stmt.updateCols hk t r0
  · rfl

theorem rowMatches_stepFn (stmt : MergeStmt) (hk : stmt.matchCol ∉ stmt.updateCols)
    (t r0 r : Row) :
    rowMatches stmt.matchCol (stepFn stmt t r0) r ↔ rowMatches stmt.matchCol t r := by
  unfold rowMatches
  rw [getVal_stepFn stmt hk]

theorem getVal_foldl_stepFn (stmt : MergeStmt) (hk : stmt.matchCol ∉ stmt.updateCols) :
    ∀ (rows : List Row) (x : Row),
      getVal stmt.matchCol (rows.foldl (stepFn stmt) x) = getVal stmt.matchCol x := by
  intro rows
  induction rows with
  | nil => intro x; rfl
  | cons r0 rest ih =>
    intro x
    rw [List.foldl_cons, ih (stepFn stmt x r0), getVal_stepFn stmt hk]

theorem updateRow_foldl_stepFn (stmt : MergeStmt) (r : Row) :
    ∀ (rows : List Row) (x : Row),
      updateRow stmt.updateCols (rows.foldl (stepFn stmt) x) r
        = updateRow stmt.updateCols x r := by
  intro rows
  induction rows with
  | nil => intro x; rfl
  | cons r0 rest ih =>
    intro x
    rw [List.foldl_cons, ih (stepFn stmt x r0)]
    unfold stepFn
    split
    · exact updateRow_updateRow stmt.updateCols x r0 r
    · rfl

theorem stepFn_pos (stmt : MergeStmt) (t r : Row) (h : rowMatches stmt.matchCol t r) :
    stepFn stmt t r = updateRow stmt.updateCols t r := by
  unfold stepFn
  exact if_pos h

theorem stepFn_neg (stmt : MergeStmt) (t r : Row) (h : ¬ rowMatches stmt.matchCol t r) :
    stepFn stmt t r = t := by
  unfold stepFn
  exact if_neg h

theorem mergeApply_pos (stmt : MergeStmt) (s : List Row) (r : Row)
    (hex : ∃ t ∈ s, rowMatches stmt.matchCol t r) :
    mergeApply stmt s r = s.map (fun t => stepFn stmt t r) := by
  have hany : s.any (fun t => decide (rowMatches stmt.matchCol t r)) = true := by
    rw [List.any_eq_true]
    obtain ⟨t, ht, hM⟩ := hex
    exact ⟨t, ht, by simpa using hM⟩
  unfold mergeApply
  rw [hany]
  simp

theorem mergeApply_neg (stmt : MergeStmt) (s : List Row) (r : Row)
    (hnex : ¬ ∃ t ∈ s, rowMatches stmt.matchCol t r) :
    mergeApply stmt s r = s ++ [r] := by
  have hany : s.any (fun t => decide (rowMatches stmt.matchCol t r)) = false := by
    rw [List.any_eq_false]
    intro t ht
    simp only [decide_eq_true_eq]
    exact fun hM => hnex ⟨t, ht, hM⟩
  unfold mergeApply
  rw [hany]
  simp

theorem merge_run_map (stmt : MergeStmt) (hk : stmt.matchCol ∉ stmt.updateCols) :
    ∀ (rows : List Row) (s : List Row),
      (∀ r ∈ rows, ∃ t ∈ s, rowMatches stmt.matchCol t r) →
      rows.foldl (mergeApply stmt) s = s.map (fun t => rows.foldl (stepFn stmt) t) := by
  intro rows
  induction rows with
  | nil =>
    intro s _
    simp
  | cons r rest ih =>
    intro s hall
    rw [List.foldl_cons, mergeApply_pos stmt s r (hall r (by simp))]
    rw [ih (s.map (fun t => stepFn stmt t r)) ?_]
    · rw [List.map_map]
      rfl
    · intro r' hr'
      obtain ⟨t, ht, hM⟩ := hall r' (List.mem_cons_of_mem _ hr')
      exact ⟨stepFn stmt t r, List.mem_map_of_mem _ ht,
        (rowMatches_stepFn stmt hk t r r').mpr hM⟩

theorem matched_pres_merge (stmt : MergeStmt) (hk : stmt.matchCol ∉ stmt.updateCols)
    (s : List Row) (r r0 : Row) (h : ∃ t ∈ s, rowMatches stmt.matchCol t r0) :
    ∃ t ∈ mergeApply stmt s r, rowMatches stmt.matchCol t r0 := by
  obtain ⟨t, ht, hM⟩ := h
  by_cases hex : ∃ t1 ∈ s, rowMatches stmt.matchCol t1 r
  · rw [mergeApply_pos stmt s r hex]
    exact ⟨stepFn stmt t r, List.mem_map_of_mem _ ht,
      (rowMatches_stepFn stmt hk t r r0).mpr hM⟩
  · rw [mergeApply_neg stmt s r hex]
    exact ⟨t, List.mem_append_left _ ht, hM⟩

theorem matched_self_merge (stmt : MergeStmt) (hk : stmt.matchCol ∉ stmt.updateCols)
    (s : List Row) (r : Row) (h0 : getVal stmt.matchCol r ≠ Scalar.null) :
    ∃ t ∈ mergeApply stmt s r, rowMatches stmt.matchCol t r := by
  by_cases hex : ∃ t1 ∈ s, rowMatches stmt.matchCol t1 r
  · exact matched_pres_merge stmt hk s r r hex
  · rw [mergeApply_neg stmt s r hex]
    exact ⟨r, List.mem_append_right _ (by simp), rfl, h0⟩

theorem matched_pres_fold (stmt : MergeStmt) (hk : stmt.matchCol ∉ stmt.updateCols) :
    ∀ (rows : List Row) (s : List Row) (r0 : Row),
      (∃ t ∈ s, rowMatches stmt.matchCol t r0) →
      ∃ t ∈ rows.foldl (mergeApply stmt) s, rowMatches stmt.matchCol t r0 := by
  intro rows
  induction rows with
  | nil => intro s r0 h; exact h
  | cons r rest ih =>
    intro s r0 h
    rw [List.foldl_cons]
    exact ih (mergeApply stmt s r) r0 (matched_pres_merge stmt hk s r r0 h)

theorem merge_run_coverage (stmt : MergeStmt) (hk : stmt.matchCol ∉ stmt.updateCols) :
    ∀ (rows : List Row),
      (∀ r ∈ rows, getVal stmt.matchCol r ≠ Scalar.null) →
      ∀ (s : List Row), ∀ r ∈ rows,
        ∃ t ∈ rows.foldl (mergeApply stmt) s, rowMatches stmt.matchCol t r := by
  intro rows
  induction rows with
  | nil =>
    intro _ s r hr
    exact absurd hr (List.not_mem_nil r)
  | cons r0 rest ih =>
    intro hall s r hr
    rw [List.foldl_cons]
    rcases List.mem_cons.mp hr with rfl | hr'
    · exact matched_pres_fold stmt hk rest (mergeApply stmt s r) r
        (matched_self_merge stmt hk s r (hall r (by simp)))
    · exact ih (fun r' h' => hall r' (List.mem_cons_of_mem _ h')) (mergeApply stmt s r0) r hr'

theorem merge_run_self_stable (stmt : MergeStmt) (hk : stmt.matchCol ∉ stmt.updateCols) :
    ∀ (rows : List Row),
      (∀ r ∈ rows, getVal stmt.matchCol r ≠ Scalar.null ∧
        updateRow stmt.updateCols r r = r) →
      ∀ (s : List Row), ∀ t ∈ rows.foldl (mergeApply stmt) s,
        rows.foldl (stepFn stmt) t = t := by
  intro rows
  induction rows using List.reverseRecOn with
  | nil =>
    intro _ s t _
    rfl
  | append_singleton rows r ih =>
    intro hrows s t ht
    rw [List.foldl_append] at ht ⊢
    simp only [List.foldl_cons, List.foldl_nil] at ht ⊢
    have hrows' : ∀ r' ∈ rows, getVal stmt.matchCol r' ≠ Scalar.null ∧
        updateRow stmt.updateCols r' r' = r' :=
      fun r' h' => hrows r' (List.mem_append_left _ h')
    have ihs1 : ∀ t' ∈ rows.foldl (mergeApply stmt) s, rows.foldl (stepFn stmt) t' = t' :=
      ih hrows' s
    by_cases hex : ∃ t0 ∈ rows.foldl (mergeApply stmt) s, rowMatches stmt.matchCol t0 r
    · rw [mergeApply_pos stmt _ r hex] at ht
      obtain ⟨t0, ht0, rfl⟩ := List.mem_map.mp ht
      by_cases hM : rowMatches stmt.matchCol t0 r
      · have hMz : rowMatches stmt.matchCol (rows.foldl (stepFn stmt) (stepFn stmt t0 r)) r := by
          unfold rowMatches
          rw [getVal_foldl_stepFn stmt hk, getVal_stepFn stmt hk]
          exact hM
        rw [stepFn_pos stmt _ r hMz, updateRow_foldl_stepFn stmt r rows (stepFn stmt t0 r),
          stepFn_pos stmt t0 r hM, updateRow_updateRow]
      · rw [stepFn_neg stmt t0 r hM, ihs1 t0 ht0]
        exact stepFn_neg stmt t0 r hM
    · rw [mergeApply_neg stmt _ r hex] at ht
      rcases List.mem_append.mp ht with ht' | ht'
      · rw [ihs1 t ht']
        exact stepFn_neg stmt t r (fun hM => hex ⟨t, ht', hM⟩)
      · have hteq : t = r := by simpa using ht'
        subst hteq
        have hMz : rowMatches stmt.matchCol (rows.foldl (stepFn stmt) t) t := by
          constructor
          · rw [getVal_foldl_stepFn stmt hk]
          · exact (hrows t (List.mem_append_right _ (by simp))).1
        rw [stepFn_pos stmt _ t hMz, updateRow_foldl_stepFn stmt t rows t]
        exact (hrows t (List.mem_append_right _ (by simp))).2

theorem merge_run_idem (stmt : MergeStmt) (hk : stmt.matchCol ∉ stmt.updateCols)
    (rows : List Row)
    (hrows : ∀ r ∈ rows, getVal stmt.matchCol r ≠ Scalar.null ∧
      updateRow stmt.updateCols r r = r)
    (s : List Row) :
    rows.foldl (mergeApply stmt) (rows.foldl (mergeApply stmt) s) = rows.foldl (mergeApply stmt) s := by
  have hcov : ∀ r ∈ rows, ∃ t ∈ rows.foldl (mergeApply stmt) s, rowMatches stmt.matchCol t r :=
    merge_run_coverage stmt hk rows (fun r hr => (hrows r hr).1) s
  rw [merge_run_map stmt hk rows _ hcov]
  have hstable := merge_run_self_stable stmt hk rows hrows s
  calc (rows.foldl (mergeApply stmt) s).map (fun t => rows.foldl (stepFn stmt) t)
      = (rows.foldl (mergeApply stmt) s).map (fun t => t) :=
        List.map_congr_left (fun t ht => hstable t ht)
    _ = rows.foldl (mergeApply stmt) s := List.map_id' _

theorem getVal_project : ∀ (C : List String) (f : List (String × Scalar)) (c : String),
    c ∈ C → getVal c (project f C) = getVal c f := by
  intro C
  induction C with
  | nil =>
    intro f c hc
    exact absurd hc (List.not_mem_nil c)
  | cons c0 C ih =>
    intro f c hc
    show getVal c ((c0, getVal c0 f) :: project f C) = getVal c f
    rw [getVal_cons]
    by_cases h : c = c0
    · simp [h]
    · rcases List.mem_cons.mp hc with h' | h'
      · exact absurd h' h
      · simp only [h, if_false]
        exact ih f c h'

theorem updateRow_project_self (upd : List String) (f : List (String × Scalar))
    (C : List String) :
    updateRow upd (project f C) (project f C) = project f C := by
  unfold updateRow
  conv_rhs => rw [← List.map_id (project f C)]
  apply List.map_congr_left
  intro q hq
  obtain ⟨c, hc, rfl⟩ := List.mem_map.mp hq
  unfold updEntry
  by_cases h : c ∈ upd
  · simp only [h, if_pos]
    rw [getVal_project C f c hc]
    rfl
  · simp [h]

theorem mem_insertSorted (a x : String) : ∀ (l : List String),
    a ∈ insertSorted x l ↔ a = x ∨ a ∈ l := by
  intro l
  induction l with
  | nil => simp [insertSorted]
  | cons y ys ih =>
    unfold insertSorted
    by_cases h : strLe x y = true
    · simp [h]
    · simp only [h]
      rw [if_neg (by simp [h])]
      simp only [List.mem_cons, ih]
      tauto

theorem mem_sortStrings (a : String) : ∀ (l : List String),
    a ∈ sortStrings l ↔ a ∈ l := by
  intro l
  induction l with
  | nil => simp [sortStrings]
  | cons x xs ih =>
    show a ∈ insertSorted x (sortStrings xs) ↔ _
    rw [mem_insertSorted, ih]
    simp

theorem lookup_ne_none_mem : ∀ (l : List (String × Scalar)) (a : String),
    List.lookup a l ≠ none → a ∈ l.map Prod.fst := by
  intro l
  induction l with
  | nil =>
    intro a h
    exact absurd rfl h
  | cons p l ih =>
    intro a h
    obtain ⟨k, v⟩ := p
    by_cases hk : a = k
    · simp [hk]
    · have hb : (a == k) = false := by simp [hk]
      rw [List.map_cons, List.mem_cons]
      refine Or.inr (ih a ?_)
      simpa [List.lookup, hb] using h

/-- Claim C8: Incremental-Upsert is idempotent. For every prior sink state
and every source in which each record carries a non-null `uuid` key
attribute, running the `load_upsert` merge sequence twice against the sink
leaves it in exactly the state produced by running it once: the second
run's merges all hit the match branch and overwrite each row with the
values it already has. -/
theorem upsert_idempotent (prior : List Row) (src : List Nested)
    (hkey : ∀ item ∈ src,
      List.lookup "uuid" (flatten_json item "" "_") ≠ none ∧
      List.lookup "uuid" (flatten_json item "" "_") ≠ some Scalar.null) :
    runUpsertSink (runUpsertSink prior src) src = runUpsertSink prior src := by
  cases src with
  | nil => rfl
  | cons first rest =>
    have hcols : "uuid" ∈ infer_columns first := by
      have h1 : "uuid" ∈ (flatten_json first "" "_").map Prod.fst :=
        lookup_ne_none_mem _ "uuid" (hkey first (by simp)).1
      exact (mem_sortStrings "uuid" _).mpr h1
    have hk : (mergeStmtFor (infer_columns first)).matchCol
        ∉ (mergeStmtFor (infer_columns first)).updateCols := by
      simp [mergeStmtFor, List.mem_filter]
    have hrowsprop : ∀ r ∈ (first :: rest).map
        (fun item => project (flatten_json item "" "_") (infer_columns first)),
        getVal (mergeStmtFor (infer_columns first)).matchCol r ≠ Scalar.null ∧
        updateRow (mergeStmtFor (infer_columns first)).updateCols r r = r := by
      intro r hr
      obtain ⟨item, hitem, rfl⟩ := List.mem_map.mp hr
      refine ⟨?_, updateRow_project_self _ _ _⟩
      show getVal "uuid" (project (flatten_json item "" "_") (infer_columns first)) ≠ Scalar.null
      rw [getVal_project _ _ _ hcols]
      obtain ⟨hnn, hns⟩ := hkey item hitem
      unfold getVal
      cases hlk : List.lookup "uuid" (flatten_json item "" "_") with
      | none => exact absurd hlk hnn
      | some v =>
        simp only [Option.getD_some]
        intro he
        exact hns (by rw [hlk, he])
    show List.foldl (mergeApply (mergeStmtFor (infer_columns first)))
        (List.foldl (mergeApply (mergeStmtFor (infer_columns first))) prior _) _ = _
    exact merge_run_idem (mergeStmtFor (infer_columns first)) hk _ hrowsprop prior

/-- Claim C8 witness: running the upsert twice on an empty prior sink and a
one-record source with a string uuid gives the same sink state as running
it once. -/
theorem upsert_idempotent_witness :
    runUpsertSink (runUpsertSink []
        [Nested.obj [("uuid", Nested.leaf (Scalar.str "u1")), ("a", Nested.leaf (Scalar.num 1))]])
        [Nested.obj [("uuid", Nested.leaf (Scalar.str "u1")), ("a", Nested.leaf (Scalar.num 1))]] =
      runUpsertSink []
        [Nested.obj [("uuid", Nested.leaf (Scalar.str "u1")), ("a", Nested.leaf (Scalar.num 1))]] :=
  upsert_idempotent [] _ (by decide)
